import Mathlib

/-!
Verification of the SCRU128 Base36 reference code (`base36_128.c`).

The repository ships two revisions of the same file: the naive revision
(uppercase `DIGITS`, naive `convert_base` only) and the v2.1.0 revision
(lowercase `DIGITS`, `convert_base` with both a naive branch under
`USE_NAIVE_CODE` and an optimized branch).  The naive `convert_base`,
`DECODE_MAP` and `decode` are byte-for-byte identical in the two
revisions, so they are embedded once below.  Digit arrays and strings are
embedded as `List Nat` (byte values); fallible functions return `Option`.
-/

/-- Value of a digit list read most-significant digit first:
`[d0, d1, ..., dn]` denotes `d0 * B^n + ... + dn` in base `B`. -/
def digitsVal (B : Nat) (l : List Nat) : Nat :=
  l.foldl (fun a d => a * B + d) 0

/-- Value of a digit list read least-significant digit first (the order the
inner loop of `convert_base` walks the output buffer). -/
def valLSB (B : Nat) : List Nat → Nat
  | [] => 0
  | d :: r => d + B * valLSB B r

/-- Digit writes of one outer iteration of the naive `convert_base`: starting
from carry `c` (the incoming input digit), walk the output buffer from the
least significant end, performing `carry += out[j] * in_base;
out[j] = carry % out_base; carry = carry / out_base`.  The buffer is passed
least-significant digit first.  This function returns the updated digits;
`mul_add_carry` returns the final carry of the same loop. -/
def mul_add_digits (A B c : Nat) : List Nat → List Nat
  | [] => []
  | d :: r => (c + d * A) % B :: mul_add_digits A B ((c + d * A) / B) r

/-- Final carry of one outer iteration of the naive `convert_base`
(the value tested by `if (carry != 0) return -1;`). -/
def mul_add_carry (A B c : Nat) : List Nat → Nat
  | [] => c
  | d :: r => mul_add_carry A B ((c + d * A) / B) r

/-- Outer loop of the naive `convert_base` from `base36_128.c`: consume the
input digits most-significant first, returning `none` when a non-zero carry
remains after an iteration (the `return -1` branch).  The output buffer is
kept least-significant digit first. -/
def conv_loop (A B : Nat) : List Nat → List Nat → Option (List Nat)
  | [], out => some out
  | d :: r, out =>
    if mul_add_carry A B d out = 0 then conv_loop A B r (mul_add_digits A B d out)
    else none

/-- The naive `convert_base(in, in_len, in_base, out, out_len, out_base)` of
`base36_128.c`: zero the `out_len`-digit output buffer, then run the
digit-by-digit multiply-accumulate loop.  Returns `some out` (digits
most-significant first) on success and `none` for the `-1` overflow return. -/
def convert_base (inp : List Nat) (A out_len B : Nat) : Option (List Nat) :=
  (conv_loop A B inp (List.replicate out_len 0)).map List.reverse

theorem valLSB_nil (B : Nat) : valLSB B [] = 0 := rfl

theorem valLSB_cons (B d : Nat) (r : List Nat) :
    valLSB B (d :: r) = d + B * valLSB B r := rfl

theorem foldl_val_acc (B : Nat) (l : List Nat) :
    ∀ a : Nat, l.foldl (fun x d => x * B + d) a =
      a * B ^ l.length + l.foldl (fun x d => x * B + d) 0 := by
  induction l with
  | nil => intro a; simp
  | cons d r ih =>
    intro a
    simp only [List.foldl_cons, List.length_cons]
    rw [ih (a * B + d), ih (0 * B + d)]
    ring

theorem digitsVal_cons (B d : Nat) (r : List Nat) :
    digitsVal B (d :: r) = d * B ^ r.length + digitsVal B r := by
  simp only [digitsVal, List.foldl_cons]
  simpa using foldl_val_acc B r d

theorem digitsVal_append (B : Nat) (x y : List Nat) :
    digitsVal B (x ++ y) = digitsVal B x * B ^ y.length + digitsVal B y := by
  simp only [digitsVal, List.foldl_append]
  exact foldl_val_acc B y (x.foldl (fun a d => a * B + d) 0)

theorem valLSB_snoc (B d : Nat) (l : List Nat) :
    valLSB B (l ++ [d]) = valLSB B l + d * B ^ l.length := by
  induction l with
  | nil => simp [valLSB]
  | cons e t ih =>
    have hc : (e :: t) ++ [d] = e :: (t ++ [d]) := rfl
    rw [hc, valLSB_cons, valLSB_cons, ih, List.length_cons]
    ring

theorem digitsVal_eq_valLSB_reverse (B : Nat) (l : List Nat) :
    digitsVal B l = valLSB B l.reverse := by
  induction l with
  | nil => rfl
  | cons d r ih =>
    rw [digitsVal_cons, List.reverse_cons, valLSB_snoc, ← ih, List.length_reverse]
    ring

theorem valLSB_lt (B : Nat) (hB : 0 < B) (l : List Nat) (h : ∀ e ∈ l, e < B) :
    valLSB B l < B ^ l.length := by
  induction l with
  | nil => simpa [valLSB] using hB
  | cons d r ih =>
    have hd : d < B := h d (by simp)
    have hr : valLSB B r < B ^ r.length := ih (fun e he => h e (by simp [he]))
    calc valLSB B (d :: r) = d + B * valLSB B r := rfl
      _ < B + B * valLSB B r := by omega
      _ = B * (valLSB B r + 1) := by ring
      _ ≤ B * B ^ r.length := Nat.mul_le_mul_left B hr
      _ = B ^ (d :: r).length := by rw [List.length_cons]; ring

theorem digitsVal_lt (B : Nat) (hB : 0 < B) (l : List Nat) (h : ∀ e ∈ l, e < B) :
    digitsVal B l < B ^ l.length := by
  rw [digitsVal_eq_valLSB_reverse]
  have := valLSB_lt B hB l.reverse (fun e he => h e (List.mem_reverse.mp he))
  simpa using this

theorem mul_add_digits_length (A B c : Nat) (l : List Nat) :
    (mul_add_digits A B c l).length = l.length := by
  induction l generalizing c with
  | nil => rfl
  | cons d r ih => simp [mul_add_digits, ih]

theorem mul_add_digits_lt (A B c : Nat) (hB : 0 < B) (l : List Nat) :
    ∀ e ∈ mul_add_digits A B c l, e < B := by
  induction l generalizing c with
  | nil => simp [mul_add_digits]
  | cons d r ih =>
    intro e he
    simp only [mul_add_digits, List.mem_cons] at he
    rcases he with h | h
    · subst h; exact Nat.mod_lt _ hB
    · exact ih _ e h

/-- Exactness of one outer iteration: the updated buffer together with the
final carry represents `c + A * (old buffer value)`. -/
theorem mul_add_spec (A B : Nat) (hB : 0 < B) (l : List Nat) :
    ∀ c : Nat, valLSB B (mul_add_digits A B c l) + mul_add_carry A B c l * B ^ l.length =
      c + A * valLSB B l := by
  induction l with
  | nil => intro c; simp [mul_add_digits, mul_add_carry, valLSB]
  | cons d r ih =>
    intro c
    simp only [mul_add_digits, mul_add_carry, valLSB, List.length_cons]
    have h1 := ih ((c + d * A) / B)
    have h2 : B * ((c + d * A) / B) + (c + d * A) % B = c + d * A :=
      Nat.div_add_mod (c + d * A) B
    calc (c + d * A) % B + B * valLSB B (mul_add_digits A B ((c + d * A) / B) r)
          + mul_add_carry A B ((c + d * A) / B) r * B ^ (r.length + 1)
        = (c + d * A) % B
          + B * (valLSB B (mul_add_digits A B ((c + d * A) / B) r)
                 + mul_add_carry A B ((c + d * A) / B) r * B ^ r.length) := by ring
      _ = (c + d * A) % B + B * ((c + d * A) / B + A * valLSB B r) := by rw [h1]
      _ = (B * ((c + d * A) / B) + (c + d * A) % B) + B * (A * valLSB B r) := by ring
      _ = (c + d * A) + B * (A * valLSB B r) := by rw [h2]
      _ = c + A * (d + B * valLSB B r) := by ring

/-- The carry stays below the input base across one outer iteration, provided
the incoming digit is below the input base and the buffer digits are below
the output base. -/
theorem mul_add_carry_lt (A B : Nat) (hB : 0 < B) (l : List Nat) :
    ∀ c : Nat, c < A → (∀ e ∈ l, e < B) → mul_add_carry A B c l < A := by
  induction l with
  | nil => intro c hc _; simpa [mul_add_carry] using hc
  | cons d r ih =>
    intro c hc hl
    have hd : d < B := hl d (by simp)
    have hstep : c + d * A < A * B := by
      have h1 : c + 1 ≤ A := hc
      have h2 : d + 1 ≤ B := hd
      calc c + d * A + 1 ≤ A + d * A := by omega
        _ = (d + 1) * A := by ring
        _ ≤ B * A := Nat.mul_le_mul_right A h2
        _ = A * B := Nat.mul_comm B A
    have hdiv : (c + d * A) / B < A := (Nat.div_lt_iff_lt_mul hB).mpr hstep
    exact ih _ hdiv (fun e he => hl e (by simp [he]))

/-- Main loop invariant of the naive `convert_base`: starting from a buffer
whose digits are below the output base, the loop fails exactly when the
combined value (buffer value shifted past the remaining input, plus the
input value) does not fit in the buffer, and on success the buffer holds
that combined value. -/
theorem conv_loop_main (A B : Nat) (hA : 1 ≤ A) (hB : 0 < B) :
    ∀ (inp out : List Nat), (∀ e ∈ out, e < B) →
      (conv_loop A B inp out = none ↔
        B ^ out.length ≤ valLSB B out * A ^ inp.length + digitsVal A inp) ∧
      (∀ o, conv_loop A B inp out = some o →
        o.length = out.length ∧ (∀ e ∈ o, e < B) ∧
        valLSB B o = valLSB B out * A ^ inp.length + digitsVal A inp) := by
  intro inp
  induction inp with
  | nil =>
    intro out hout
    constructor
    · simp only [conv_loop, List.length_nil, pow_zero, mul_one]
      constructor
      · intro h; cases h
      · intro h
        exact absurd h (by simpa [digitsVal] using Nat.not_le.mpr (valLSB_lt B hB out hout))
    · intro o ho
      simp only [conv_loop, Option.some.injEq] at ho
      subst ho
      simp [digitsVal, valLSB_lt B hB]
      exact hout
  | cons d r ih =>
    intro out hout
    have hspec := mul_add_spec A B hB out d
    have hlen := mul_add_digits_length A B d out
    have hval : valLSB B out * A ^ (d :: r).length + digitsVal A (d :: r) =
        (valLSB B (mul_add_digits A B d out) + mul_add_carry A B d out * B ^ out.length)
          * A ^ r.length + digitsVal A r := by
      rw [hspec, digitsVal_cons, List.length_cons]
      ring
    by_cases hc : mul_add_carry A B d out = 0
    · have hrec := ih (mul_add_digits A B d out) (mul_add_digits_lt A B d hB out)
      have hloop : conv_loop A B (d :: r) out = conv_loop A B r (mul_add_digits A B d out) := by
        simp [conv_loop, hc]
      rw [hval, hc, Nat.zero_mul, Nat.add_zero, ← hlen]
      constructor
      · rw [hloop]; exact hrec.1
      · intro o ho
        rw [hloop] at ho
        exact hrec.2 o ho
    · have hloop : conv_loop A B (d :: r) out = none := by
        simp [conv_loop, hc]
      constructor
      · rw [hloop]
        simp only [true_iff]
        have h1 : B ^ out.length ≤
            valLSB B (mul_add_digits A B d out) + mul_add_carry A B d out * B ^ out.length := by
          have : 1 ≤ mul_add_carry A B d out := Nat.one_le_iff_ne_zero.mpr hc
          calc B ^ out.length = 1 * B ^ out.length := (Nat.one_mul _).symm
            _ ≤ mul_add_carry A B d out * B ^ out.length := Nat.mul_le_mul_right _ this
            _ ≤ _ := Nat.le_add_left _ _
        have h2 : 1 ≤ A ^ r.length := Nat.one_le_pow _ _ hA
        rw [hval]
        calc B ^ out.length = B ^ out.length * 1 := (Nat.mul_one _).symm
          _ ≤ (valLSB B (mul_add_digits A B d out) + mul_add_carry A B d out * B ^ out.length)
                * A ^ r.length := Nat.mul_le_mul h1 h2
          _ ≤ _ := Nat.le_add_right _ _
      · intro o ho
        rw [hloop] at ho
        cases ho

theorem replicate_lt (B L : Nat) (hB : 0 < B) : ∀ e ∈ List.replicate L 0, e < B := by
  intro e he
  rw [List.eq_of_mem_replicate he]
  exact hB

theorem valLSB_replicate (B L : Nat) : valLSB B (List.replicate L 0) = 0 := by
  induction L with
  | zero => rfl
  | succ n ih => simp [List.replicate_succ, valLSB, ih]

/-- The naive `convert_base` returns `-1` exactly when the input value needs
more than `out_len` digits in the output base. -/
theorem convert_base_none_iff (inp : List Nat) (A L B : Nat) (hA : 1 ≤ A) (hB : 0 < B) :
    convert_base inp A L B = none ↔ B ^ L ≤ digitsVal A inp := by
  have h := (conv_loop_main A B hA hB inp (List.replicate L 0) (replicate_lt B L hB)).1
  rw [valLSB_replicate, Nat.zero_mul, Nat.zero_add, List.length_replicate] at h
  rw [← h]
  simp only [convert_base, Option.map_eq_none']

/-- On success, the naive `convert_base` emits `out_len` digits below the
output base whose most-significant-first value equals the input value. -/
theorem convert_base_some (inp : List Nat) (A L B : Nat) (hA : 1 ≤ A) (hB : 0 < B)
    (o : List Nat) (h : convert_base inp A L B = some o) :
    o.length = L ∧ (∀ e ∈ o, e < B) ∧ digitsVal B o = digitsVal A inp ∧
      digitsVal A inp < B ^ L := by
  simp only [convert_base, Option.map_eq_some'] at h
  obtain ⟨w, hw, hrev⟩ := h
  have hmain := conv_loop_main A B hA hB inp (List.replicate L 0) (replicate_lt B L hB)
  have hsome := hmain.2 w hw
  rw [valLSB_replicate, Nat.zero_mul, Nat.zero_add, List.length_replicate] at hsome
  obtain ⟨hl, hd, hv⟩ := hsome
  have hnone := hmain.1
  rw [valLSB_replicate, Nat.zero_mul, Nat.zero_add, List.length_replicate] at hnone
  subst hrev
  refine ⟨by simpa using hl, ?_, ?_, ?_⟩
  · intro e he; exact hd e (List.mem_reverse.mp he)
  · rw [digitsVal_eq_valLSB_reverse, List.reverse_reverse, hv]
  · by_contra hge
    have : conv_loop A B inp (List.replicate L 0) = none :=
      hnone.mpr (Nat.le_of_not_lt hge)
    rw [this] at hw
    cases hw

/-- Little-endian digit expansion of `v` to exactly `L` digits in base `B`. -/
def natDigitsRev (B : Nat) : Nat → Nat → List Nat
  | 0, _ => []
  | L + 1, v => v % B :: natDigitsRev B L (v / B)

/-- Big-endian (most-significant first) digit expansion of `v` to exactly `L`
digits in base `B`, zero-padded on the left: the representation the spec
says `convert_base` must produce. -/
def natDigits (B L v : Nat) : List Nat :=
  (natDigitsRev B L v).reverse

theorem natDigitsRev_length (B L v : Nat) : (natDigitsRev B L v).length = L := by
  induction L generalizing v with
  | zero => rfl
  | succ n ih => simp [natDigitsRev, ih]

theorem natDigitsRev_lt (B L v : Nat) (hB : 0 < B) : ∀ e ∈ natDigitsRev B L v, e < B := by
  induction L generalizing v with
  | zero => simp [natDigitsRev]
  | succ n ih =>
    intro e he
    simp only [natDigitsRev, List.mem_cons] at he
    rcases he with h | h
    · subst h; exact Nat.mod_lt _ hB
    · exact ih _ e h

theorem natDigitsRev_val (B L v : Nat) (hB : 0 < B) (h : v < B ^ L) :
    valLSB B (natDigitsRev B L v) = v := by
  induction L generalizing v with
  | zero =>
    have : v = 0 := by simpa using h
    simp [natDigitsRev, valLSB, this]
  | succ n ih =>
    have hdiv : v / B < B ^ n := by
      rw [Nat.div_lt_iff_lt_mul hB]
      calc v < B ^ (n + 1) := h
        _ = B ^ n * B := by ring
    simp only [natDigitsRev, valLSB, ih _ hdiv]
    exact Nat.mod_add_div v B

theorem valLSB_inj (B : Nat) (hB : 0 < B) :
    ∀ l1 l2 : List Nat, l1.length = l2.length → (∀ e ∈ l1, e < B) → (∀ e ∈ l2, e < B) →
      valLSB B l1 = valLSB B l2 → l1 = l2 := by
  intro l1
  induction l1 with
  | nil =>
    intro l2 hlen _ _ _
    cases l2 with
    | nil => rfl
    | cons e t => cases hlen
  | cons d r ih =>
    intro l2 hlen h1 h2 hv
    cases l2 with
    | nil => cases hlen
    | cons e t =>
      have hd : d < B := h1 d (by simp)
      have he : e < B := h2 e (by simp)
      simp only [valLSB] at hv
      have hmod : d = e := by
        have h1m : (d + B * valLSB B r) % B = d := by
          rw [Nat.add_mul_mod_self_left, Nat.mod_eq_of_lt hd]
        have h2m : (e + B * valLSB B t) % B = e := by
          rw [Nat.add_mul_mod_self_left, Nat.mod_eq_of_lt he]
        rw [← h1m, ← h2m, hv]
      subst hmod
      have hrest : valLSB B r = valLSB B t := by
        have := Nat.add_left_cancel hv
        exact Nat.eq_of_mul_eq_mul_left hB this
      have := ih t (by simpa using hlen) (fun x hx => h1 x (by simp [hx]))
        (fun x hx => h2 x (by simp [hx])) hrest
      rw [this]

/-- Any success output of a base conversion is the canonical zero-padded
digit expansion of the value. -/
theorem digits_unique (B L v : Nat) (hB : 0 < B) (o : List Nat)
    (hlen : o.length = L) (hdig : ∀ e ∈ o, e < B) (hval : digitsVal B o = v)
    (hv : v < B ^ L) : o = natDigits B L v := by
  have h1 : o.reverse = natDigitsRev B L v := by
    apply valLSB_inj B hB
    · rw [List.length_reverse, natDigitsRev_length, hlen]
    · intro e he; exact hdig e (List.mem_reverse.mp he)
    · exact natDigitsRev_lt B L v hB
    · rw [← digitsVal_eq_valLSB_reverse, hval, natDigitsRev_val B L v hB hv]
  calc o = o.reverse.reverse := (List.reverse_reverse o).symm
    _ = natDigits B L v := by rw [h1]; rfl

/-- When the input value fits, `convert_base` succeeds and produces exactly
the canonical zero-padded expansion of the value. -/
theorem convert_base_success (inp : List Nat) (A L B : Nat) (hA : 1 ≤ A) (hB : 0 < B)
    (hfit : digitsVal A inp < B ^ L) :
    convert_base inp A L B = some (natDigits B L (digitsVal A inp)) := by
  cases h : convert_base inp A L B with
  | none =>
    have := (convert_base_none_iff inp A L B hA hB).mp h
    omega
  | some o =>
    obtain ⟨hlen, hdig, hval, _⟩ := convert_base_some inp A L B hA hB o h
    rw [digits_unique B L (digitsVal A inp) hB o hlen hdig hval hfit]

/-- C2: under the documented precondition (`2 ≤ in_base, out_base ≤ 256`,
every input digit below `in_base`), whenever the value of the input numeral
fits in `out_len` digits of `out_base`, `convert_base` succeeds and writes
the `out_base` representation of that value, most-significant digit first,
zero-padded on the left to `out_len` digits. -/
theorem convert_base_functional_correct (inp : List Nat) (A L B : Nat)
    (hA1 : 2 ≤ A) (hA2 : A ≤ 256) (hB1 : 2 ≤ B) (hB2 : B ≤ 256)
    (hdig : ∀ d ∈ inp, d < A) (hfit : digitsVal A inp < B ^ L) :
    convert_base inp A L B = some (natDigits B L (digitsVal A inp)) :=
  convert_base_success inp A L B (by omega) (by omega) hfit

theorem convert_base_functional_correct_witness :
    (2 ≤ 10 ∧ 10 ≤ 256 ∧ 2 ≤ 16 ∧ 16 ≤ 256 ∧ (∀ d ∈ [2, 5, 5], d < 10) ∧
      digitsVal 10 [2, 5, 5] < 16 ^ 3) ∧
    convert_base [2, 5, 5] 10 3 16 = some (natDigits 16 3 (digitsVal 10 [2, 5, 5])) :=
  ⟨by decide,
   convert_base_functional_correct [2, 5, 5] 10 3 16 (by decide) (by decide) (by decide)
     (by decide) (by decide) (by decide)⟩

/-- C5: under the documented precondition, `convert_base` reports `Overflow`
(returns `-1`) exactly when the input value does not fit in `out_len` digits
of base `out_base`, i.e. when it is at least `out_base ^ out_len`; otherwise
it reports success. -/
theorem convert_base_overflow_iff (inp : List Nat) (A L B : Nat)
    (hA1 : 2 ≤ A) (hA2 : A ≤ 256) (hB1 : 2 ≤ B) (hB2 : B ≤ 256)
    (hdig : ∀ d ∈ inp, d < A) :
    convert_base inp A L B = none ↔ B ^ L ≤ digitsVal A inp :=
  convert_base_none_iff inp A L B (by omega) (by omega)

theorem convert_base_overflow_iff_witness :
    (2 ≤ 10 ∧ 10 ≤ 256 ∧ 2 ≤ 2 ∧ 2 ≤ 256 ∧ (∀ d ∈ [9], d < 10)) ∧
    (convert_base [9] 10 3 2 = none ↔ 2 ^ 3 ≤ digitsVal 10 [9]) :=
  ⟨by decide,
   convert_base_overflow_iff [9] 10 3 2 (by decide) (by decide) (by decide) (by decide)
     (by decide)⟩

/-- Largest representable `uint64_t` value, `UINT64_MAX`. -/
def UINT64_MAX : Nat := 2 ^ 64 - 1

/-- Word-size selection loop of the optimized `convert_base`
(`while (word_base <= UINT64_MAX / ((uint64_t)in_base * out_base)) {
word_len++; word_base *= in_base; }`), written with explicit fuel.  For
`in_base ≥ 2` the loop body runs at most 61 times (each pass at least
doubles `word_base`, and the guard forces `word_base ≤ UINT64_MAX / 4`), so
fuel 64 never runs out. -/
def word_sel (A B : Nat) : Nat → Nat → Nat → Nat × Nat
  | 0, wl, wb => (wl, wb)
  | f + 1, wl, wb =>
    if wb ≤ UINT64_MAX / (A * B) then word_sel A B f (wl + 1) (wb * A)
    else (wl, wb)

/-- The `(word_len, word_base)` pair chosen by the optimized `convert_base`,
starting from `word_len = 1`, `word_base = in_base`. -/
def word_params (A B : Nat) : Nat × Nat := word_sel A B 64 1 A

/-- Digit writes of one outer iteration of the optimized `convert_base`,
including the early `break`: positions are counted from the least
significant end (`k` is the current position, so C index `j = out_len-1-k`),
and `kmin` is `out_len - 1 - out_used`, so the C condition
`j <= out_used` becomes `kmin ≤ k`.  When the loop breaks, the remaining
(more significant) digits are left untouched. -/
def brk_digits (W B c kmin k : Nat) : List Nat → List Nat
  | [] => []
  | d :: r =>
    (c + d * W) % B ::
      (if (c + d * W) / B = 0 ∧ kmin ≤ k then r
       else brk_digits W B ((c + d * W) / B) kmin (k + 1) r)

/-- Final carry of one outer iteration of the optimized `convert_base`
(zero when the loop breaks early). -/
def brk_carry (W B c kmin k : Nat) : List Nat → Nat
  | [] => c
  | d :: r =>
    if (c + d * W) / B = 0 ∧ kmin ≤ k then 0
    else brk_carry W B ((c + d * W) / B) kmin (k + 1) r

/-- Updated `out_used` marker (in least-significant-first coordinates) after
one outer iteration of the optimized `convert_base`. -/
def brk_kmin (W B c kmin k : Nat) : List Nat → Nat
  | [] => kmin
  | d :: r =>
    if (c + d * W) / B = 0 ∧ kmin ≤ k then k
    else brk_kmin W B ((c + d * W) / B) kmin (k + 1) r

/-- Split a list into consecutive chunks of exactly `w` elements (the word
reads of the optimized outer loop after the initial partial word). -/
def chunksExact (w : Nat) (l : List Nat) : List (List Nat) :=
  if h : w = 0 ∨ l = [] then []
  else l.take w :: chunksExact w (l.drop w)
termination_by l.length
decreasing_by
  simp only [List.length_drop]
  rcases Nat.eq_zero_or_pos w with h0 | h0
  · exact absurd (Or.inl h0) h
  · have : l ≠ [] := fun hl => h (Or.inr hl)
    have : 0 < l.length := List.length_pos.mpr this
    omega

/-- The word sequence read by the optimized outer loop: a first partial word
of `in_len % word_len` digits when that remainder is non-zero (the
iteration whose index `i` starts negative), then full words. -/
def groups (wl : Nat) (l : List Nat) : List (List Nat) :=
  (if l.length % wl = 0 then [] else [l.take (l.length % wl)]) ++
    chunksExact wl (l.drop (l.length % wl))

/-- Outer loop of the optimized `convert_base`: for each word, accumulate its
digits into `carry` (`carry = carry * in_base + in[j]`, i.e. `digitsVal`),
run the break-enabled inner loop with multiplier `word_base`, and fail when
a non-zero carry remains. -/
def opt_loop (A W B : Nat) : List (List Nat) → List Nat → Nat → Option (List Nat)
  | [], out, _ => some out
  | g :: gs, out, kmin =>
    if brk_carry W B (digitsVal A g) kmin 0 out = 0 then
      opt_loop A W B gs (brk_digits W B (digitsVal A g) kmin 0 out)
        (brk_kmin W B (digitsVal A g) kmin 0 out)
    else none

/-- The optimized `convert_base` of the v2.1.0 `base36_128.c` (the branch
compiled when `USE_NAIVE_CODE` is not defined): choose `(word_len,
word_base)`, zero the output buffer, set `out_used = out_len - 1` (i.e.
`kmin = 0`), and run the word-by-word loop. -/
def convert_base_opt (inp : List Nat) (A out_len B : Nat) : Option (List Nat) :=
  (opt_loop A (word_params A B).2 B (groups (word_params A B).1 inp)
      (List.replicate out_len 0) 0).map List.reverse

theorem getD_all_zero (l : List Nat) (h : ∀ m, m < l.length → l.getD m 0 = 0) :
    ∀ x ∈ l, x = 0 := by
  intro x hx
  obtain ⟨i, hi, hget⟩ := List.mem_iff_getElem.mp hx
  have := h i hi
  rw [List.getD_eq_getElem l 0 hi] at this
  rw [← hget, this]

theorem mul_add_zeros (W B : Nat) (hB : 0 < B) (l : List Nat) (h : ∀ x ∈ l, x = 0) :
    mul_add_digits W B 0 l = l ∧ mul_add_carry W B 0 l = 0 := by
  induction l with
  | nil => exact ⟨rfl, rfl⟩
  | cons d r ih =>
    have hd : d = 0 := h d (by simp)
    subst hd
    have hrec := ih (fun x hx => h x (by simp [hx]))
    constructor
    · simp only [mul_add_digits]
      rw [show (0 + 0 * W) / B = 0 by simp, show (0 + 0 * W) % B = 0 by simp, hrec.1]
    · simp only [mul_add_carry]
      rw [show (0 + 0 * W) / B = 0 by simp, hrec.2]

/-- The break-enabled inner loop computes exactly the digits and carry of the
plain inner loop, as long as every buffer position strictly beyond the
`out_used` marker is still zero; it also re-establishes that invariant for
the marker it returns. -/
theorem brk_eq (W B : Nat) (hB : 0 < B) :
    ∀ (l : List Nat) (c kmin k : Nat),
      (∀ m, m < l.length → kmin < k + m → l.getD m 0 = 0) →
      brk_digits W B c kmin k l = mul_add_digits W B c l ∧
      brk_carry W B c kmin k l = mul_add_carry W B c l ∧
      (brk_carry W B c kmin k l = 0 →
        (∀ m, m < l.length → brk_kmin W B c kmin k l < k + m →
          (brk_digits W B c kmin k l).getD m 0 = 0) ∧
        (l ≠ [] → k ≤ brk_kmin W B c kmin k l)) := by
  intro l
  induction l with
  | nil =>
    intro c kmin k _
    refine ⟨rfl, rfl, fun _ => ⟨fun m hm => absurd hm (by simp), fun h => absurd rfl h⟩⟩
  | cons d r ih =>
    intro c kmin k H
    have Hr : ∀ m, m < r.length → kmin < (k + 1) + m → r.getD m 0 = 0 := by
      intro m hm hk
      have := H (m + 1) (by simpa using Nat.succ_lt_succ hm) (by omega)
      simpa [List.getD_cons_succ] using this
    by_cases hcond : (c + d * W) / B = 0 ∧ kmin ≤ k
    · have hz : ∀ x ∈ r, x = 0 := by
        apply getD_all_zero
        intro m hm
        exact Hr m hm (by omega)
      have hzero := mul_add_zeros W B hB r hz
      have hd : brk_digits W B c kmin k (d :: r) = (c + d * W) % B :: r := by
        simp only [brk_digits, if_pos hcond]
      have hc : brk_carry W B c kmin k (d :: r) = 0 := by
        simp only [brk_carry, if_pos hcond]
      have hk : brk_kmin W B c kmin k (d :: r) = k := by
        simp only [brk_kmin, if_pos hcond]
      refine ⟨?_, ?_, ?_⟩
      · rw [hd]
        simp only [mul_add_digits]
        rw [hcond.1, hzero.1]
      · rw [hc]
        simp only [mul_add_carry]
        rw [hcond.1, hzero.2]
      · intro _
        constructor
        · intro m hm hkm
          rw [hk] at hkm
          rw [hd]
          cases m with
          | zero => omega
          | succ m' =>
            simp only [List.getD_cons_succ]
            have hm' : m' < r.length := by simpa using hm
            exact Hr m' hm' (by omega)
        · intro _
          rw [hk]
    · have hd : brk_digits W B c kmin k (d :: r) =
          (c + d * W) % B :: brk_digits W B ((c + d * W) / B) kmin (k + 1) r := by
        simp only [brk_digits, if_neg hcond]
      have hc : brk_carry W B c kmin k (d :: r) =
          brk_carry W B ((c + d * W) / B) kmin (k + 1) r := by
        simp only [brk_carry, if_neg hcond]
      have hk : brk_kmin W B c kmin k (d :: r) =
          brk_kmin W B ((c + d * W) / B) kmin (k + 1) r := by
        simp only [brk_kmin, if_neg hcond]
      obtain ⟨ih1, ih2, ih3⟩ := ih ((c + d * W) / B) kmin (k + 1) Hr
      refine ⟨?_, ?_, ?_⟩
      · rw [hd, ih1]; rfl
      · rw [hc, ih2]; rfl
      · intro hcz
        rw [hc] at hcz
        obtain ⟨P1, P2⟩ := ih3 hcz
        constructor
        · intro m hm hkm
          rw [hk] at hkm
          cases m with
          | zero =>
            exfalso
            by_cases hre : r = []
            · have hcz' : (c + d * W) / B = 0 := by
                rw [hre] at hcz
                simpa [brk_carry] using hcz
              have hkmin : ¬ kmin ≤ k := fun hle => hcond ⟨hcz', hle⟩
              have hkr : brk_kmin W B ((c + d * W) / B) kmin (k + 1) r = kmin := by
                rw [hre]; rfl
              omega
            · have := P2 hre
              omega
          | succ m' =>
            rw [hd]
            simp only [List.getD_cons_succ]
            have hm' : m' < r.length := by simpa using hm
            exact P1 m' hm' (by omega)
        · intro _
          rw [hk]
          by_cases hre : r = []
          · have hcz' : (c + d * W) / B = 0 := by
              rw [hre] at hcz
              simpa [brk_carry] using hcz
            have hkmin : ¬ kmin ≤ k := fun hle => hcond ⟨hcz', hle⟩
            have hkr : brk_kmin W B ((c + d * W) / B) kmin (k + 1) r = kmin := by
              rw [hre]; rfl
            omega
          · have := P2 hre
            omega

theorem fold_ge (A W : Nat) (hW : 1 ≤ W) :
    ∀ (gs : List (List Nat)) (a : Nat),
      a ≤ gs.foldl (fun x g => digitsVal A g + W * x) a := by
  intro gs
  induction gs with
  | nil => intro a; simp
  | cons g t ih =>
    intro a
    have h1 : a ≤ digitsVal A g + W * a := by
      calc a = 1 * a := (Nat.one_mul a).symm
        _ ≤ W * a := Nat.mul_le_mul_right a hW
        _ ≤ digitsVal A g + W * a := Nat.le_add_left _ _
    calc a ≤ digitsVal A g + W * a := h1
      _ ≤ _ := by simpa [List.foldl_cons] using ih (digitsVal A g + W * a)

theorem replicate_getD (L m : Nat) : (List.replicate L 0).getD m 0 = 0 := by
  by_cases h : m < L
  · rw [List.getD_eq_getElem _ _ (by simpa using h)]
    simp
  · rw [List.getD_eq_default _ _ (by simpa using Nat.le_of_not_lt h)]

/-- Main loop invariant of the optimized `convert_base`: with the
`out_used` zero-invariant in force, the word-by-word loop fails exactly
when the folded word values (each outer step multiplying the accumulated
value by `word_base`) exceed the buffer, and on success the buffer holds
the folded value. -/
theorem opt_loop_spec (A W B : Nat) (hB : 0 < B) (hW : 1 ≤ W) :
    ∀ (gs : List (List Nat)) (out : List Nat) (kmin : Nat),
      (∀ e ∈ out, e < B) →
      (∀ m, m < out.length → kmin < m → out.getD m 0 = 0) →
      (opt_loop A W B gs out kmin = none ↔
        B ^ out.length ≤ gs.foldl (fun a g => digitsVal A g + W * a) (valLSB B out)) ∧
      (∀ o, opt_loop A W B gs out kmin = some o →
        o.length = out.length ∧ (∀ e ∈ o, e < B) ∧
        valLSB B o = gs.foldl (fun a g => digitsVal A g + W * a) (valLSB B out)) := by
  intro gs
  induction gs with
  | nil =>
    intro out kmin hout _
    constructor
    · simp only [opt_loop, List.foldl_nil]
      constructor
      · intro h; cases h
      · intro h
        exact absurd h (Nat.not_le.mpr (valLSB_lt B hB out hout))
    · intro o ho
      simp only [opt_loop, Option.some.injEq] at ho
      subst ho
      exact ⟨rfl, hout, rfl⟩
  | cons g gs ih =>
    intro out kmin hout hinv
    have hbrk := brk_eq W B hB out (digitsVal A g) kmin 0
      (by intro m hm hk; exact hinv m hm (by omega))
    obtain ⟨hdig_eq, hcar_eq, hpost⟩ := hbrk
    have hspec := mul_add_spec W B hB out (digitsVal A g)
    by_cases hc : brk_carry W B (digitsVal A g) kmin 0 out = 0
    · have hloop : opt_loop A W B (g :: gs) out kmin =
          opt_loop A W B gs (brk_digits W B (digitsVal A g) kmin 0 out)
            (brk_kmin W B (digitsVal A g) kmin 0 out) := by
        simp only [opt_loop, if_pos hc]
      have hcar0 : mul_add_carry W B (digitsVal A g) out = 0 := by rw [← hcar_eq]; exact hc
      have hval : valLSB B (brk_digits W B (digitsVal A g) kmin 0 out) =
          digitsVal A g + W * valLSB B out := by
        rw [hdig_eq]
        have := hspec
        rw [hcar0, Nat.zero_mul, Nat.add_zero] at this
        exact this
      have hlen : (brk_digits W B (digitsVal A g) kmin 0 out).length = out.length := by
        rw [hdig_eq]; exact mul_add_digits_length W B (digitsVal A g) out
      have hdlt : ∀ e ∈ brk_digits W B (digitsVal A g) kmin 0 out, e < B := by
        rw [hdig_eq]; exact mul_add_digits_lt W B (digitsVal A g) hB out
      have hinv' : ∀ m, m < (brk_digits W B (digitsVal A g) kmin 0 out).length →
          brk_kmin W B (digitsVal A g) kmin 0 out < m →
          (brk_digits W B (digitsVal A g) kmin 0 out).getD m 0 = 0 := by
        intro m hm hk
        exact (hpost hc).1 m (by rwa [hlen] at hm) (by omega)
      have hrec := ih (brk_digits W B (digitsVal A g) kmin 0 out)
        (brk_kmin W B (digitsVal A g) kmin 0 out) hdlt hinv'
      constructor
      · rw [hloop, List.foldl_cons, ← hval, ← hlen]
        exact hrec.1
      · intro o ho
        rw [hloop] at ho
        obtain ⟨h1, h2, h3⟩ := hrec.2 o ho
        exact ⟨by rwa [hlen] at h1, h2, by rwa [hval, ← List.foldl_cons] at h3⟩
    · have hloop : opt_loop A W B (g :: gs) out kmin = none := by
        simp only [opt_loop, if_neg hc]
      constructor
      · rw [hloop]
        simp only [true_iff]
        have hcar : mul_add_carry W B (digitsVal A g) out ≠ 0 := by rw [← hcar_eq]; exact hc
        have h1 : B ^ out.length ≤ digitsVal A g + W * valLSB B out := by
          rw [← hspec]
          have : 1 ≤ mul_add_carry W B (digitsVal A g) out := Nat.one_le_iff_ne_zero.mpr hcar
          calc B ^ out.length = 1 * B ^ out.length := (Nat.one_mul _).symm
            _ ≤ mul_add_carry W B (digitsVal A g) out * B ^ out.length :=
                Nat.mul_le_mul_right _ this
            _ ≤ _ := Nat.le_add_left _ _
        calc B ^ out.length ≤ digitsVal A g + W * valLSB B out := h1
          _ ≤ _ := by simpa [List.foldl_cons] using fold_ge A W hW gs (digitsVal A g + W * valLSB B out)
      · intro o ho
        rw [hloop] at ho
        cases ho

theorem chunksExact_nil (w : Nat) : chunksExact w [] = [] := by
  rw [chunksExact]
  simp

theorem chunksExact_cons (w : Nat) (l : List Nat) (hw : 0 < w) (hl : l ≠ []) :
    chunksExact w l = l.take w :: chunksExact w (l.drop w) := by
  rw [chunksExact]
  rw [dif_neg]
  push_neg
  exact ⟨by omega, hl⟩

theorem fold_chunksExact (A w : Nat) (hw : 0 < w) :
    ∀ (n : Nat) (l : List Nat), l.length ≤ n → w ∣ l.length →
      ∀ a : Nat, (chunksExact w l).foldl (fun x g => digitsVal A g + A ^ w * x) a =
        a * A ^ l.length + digitsVal A l := by
  intro n
  induction n with
  | zero =>
    intro l hl _ a
    have : l = [] := List.eq_nil_of_length_eq_zero (Nat.le_zero.mp hl)
    subst this
    simp [chunksExact_nil, digitsVal]
  | succ n ih =>
    intro l hl hdvd a
    by_cases hl0 : l = []
    · subst hl0
      simp [chunksExact_nil, digitsVal]
    · have hpos : 0 < l.length := List.length_pos.mpr hl0
      have hge : w ≤ l.length := Nat.le_of_dvd hpos hdvd
      rw [chunksExact_cons w l hw hl0, List.foldl_cons]
      have hdrop_len : (l.drop w).length = l.length - w := List.length_drop w l
      have hdvd' : w ∣ (l.drop w).length := by
        rw [hdrop_len]
        exact (Nat.dvd_sub' hdvd (Nat.dvd_refl w))
      have hih := ih (l.drop w) (by omega) hdvd' (digitsVal A (l.take w) + A ^ w * a)
      rw [hih]
      have hsplit : digitsVal A l = digitsVal A (l.take w) * A ^ (l.drop w).length
          + digitsVal A (l.drop w) := by
        conv_lhs => rw [← List.take_append_drop w l]
        exact digitsVal_append A (l.take w) (l.drop w)
      rw [hsplit, hdrop_len]
      have hpow : A ^ w * A ^ (l.length - w) = A ^ l.length := by
        rw [← pow_add]
        congr 1
        omega
      calc (digitsVal A (l.take w) + A ^ w * a) * A ^ (l.length - w)
            + digitsVal A (l.drop w)
          = a * (A ^ w * A ^ (l.length - w))
            + (digitsVal A (l.take w) * A ^ (l.length - w) + digitsVal A (l.drop w)) := by ring
        _ = a * A ^ l.length
            + (digitsVal A (l.take w) * A ^ (l.length - w) + digitsVal A (l.drop w)) := by
            rw [hpow]

/-- Folding the word values over the word sequence of the optimized loop
reconstructs exactly the value of the whole input numeral. -/
theorem groups_fold (A wl : Nat) (hwl : 0 < wl) (l : List Nat) :
    (groups wl l).foldl (fun x g => digitsVal A g + A ^ wl * x) 0 = digitsVal A l := by
  unfold groups
  have hr : l.length % wl ≤ l.length := Nat.mod_le _ _
  have hdvd : wl ∣ (l.drop (l.length % wl)).length := by
    rw [List.length_drop]
    have := Nat.div_add_mod l.length wl
    exact ⟨l.length / wl, by omega⟩
  by_cases h0 : l.length % wl = 0
  · rw [if_pos h0, h0]
    simp only [List.nil_append, List.drop_zero]
    have := fold_chunksExact A wl hwl l.length l (Nat.le_refl _)
      (Nat.dvd_of_mod_eq_zero h0) 0
    rw [this]
    simp
  · rw [if_neg h0]
    simp only [List.cons_append, List.nil_append, List.foldl_cons]
    have hfold := fold_chunksExact A wl hwl (l.drop (l.length % wl)).length
      (l.drop (l.length % wl)) (Nat.le_refl _) hdvd
      (digitsVal A (l.take (l.length % wl)) + A ^ wl * 0)
    rw [hfold]
    have hsplit : digitsVal A l = digitsVal A (l.take (l.length % wl))
        * A ^ (l.drop (l.length % wl)).length + digitsVal A (l.drop (l.length % wl)) := by
      conv_rhs => rw [← digitsVal_append]
      rw [List.take_append_drop]
    rw [hsplit]
    ring

/-- Invariants of the word-size selection loop: `word_base` is always
`in_base ^ word_len`, `word_base * out_base` never exceeds `UINT64_MAX`,
and `word_len` stays at least 1. -/
theorem word_sel_inv (A B : Nat) (hA : 1 ≤ A) (hB : 1 ≤ B) :
    ∀ (f wl wb : Nat), wb = A ^ wl → wb * B ≤ UINT64_MAX → 1 ≤ wl →
      (word_sel A B f wl wb).2 = A ^ (word_sel A B f wl wb).1 ∧
      (word_sel A B f wl wb).2 * B ≤ UINT64_MAX ∧ 1 ≤ (word_sel A B f wl wb).1 := by
  intro f
  induction f with
  | zero => intro wl wb h1 h2 h3; exact ⟨h1, h2, h3⟩
  | succ f ih =>
    intro wl wb h1 h2 h3
    by_cases hcond : wb ≤ UINT64_MAX / (A * B)
    · have hstep : word_sel A B (f + 1) wl wb = word_sel A B f (wl + 1) (wb * A) := by
        simp only [word_sel, if_pos hcond]
      rw [hstep]
      apply ih
      · rw [h1, pow_succ]
      · have hAB : 0 < A * B := Nat.mul_pos (by omega) (by omega)
        have := (Nat.le_div_iff_mul_le hAB).mp hcond
        calc wb * A * B = wb * (A * B) := by ring
          _ ≤ UINT64_MAX := this
      · omega
    · have hstep : word_sel A B (f + 1) wl wb = (wl, wb) := by
        simp only [word_sel, if_neg hcond]
      rw [hstep]
      exact ⟨h1, h2, h3⟩

theorem word_params_inv (A B : Nat) (hA : 1 ≤ A) (hA2 : A ≤ 256) (hB : 1 ≤ B)
    (hB2 : B ≤ 256) :
    (word_params A B).2 = A ^ (word_params A B).1 ∧
    (word_params A B).2 * B ≤ UINT64_MAX ∧ 1 ≤ (word_params A B).1 := by
  apply word_sel_inv A B hA hB
  · rw [pow_one]
  · calc A * B ≤ 256 * 256 := Nat.mul_le_mul hA2 hB2
      _ ≤ UINT64_MAX := by norm_num [UINT64_MAX]
  · exact Nat.le_refl 1

theorem convert_base_opt_none_iff (inp : List Nat) (A L B : Nat)
    (hA : 1 ≤ A) (hA2 : A ≤ 256) (hB : 1 ≤ B) (hB2 : B ≤ 256) :
    convert_base_opt inp A L B = none ↔ B ^ L ≤ digitsVal A inp := by
  obtain ⟨hwb, _, hwl⟩ := word_params_inv A B hA hA2 hB hB2
  have hW : 1 ≤ (word_params A B).2 := by
    rw [hwb]
    exact Nat.one_le_pow _ _ (by omega)
  have hspec := (opt_loop_spec A (word_params A B).2 B (by omega) hW
    (groups (word_params A B).1 inp) (List.replicate L 0) 0
    (replicate_lt B L (by omega))
    (fun m _ _ => replicate_getD L m)).1
  rw [valLSB_replicate, List.length_replicate] at hspec
  have hfold : (groups (word_params A B).1 inp).foldl
      (fun a g => digitsVal A g + (word_params A B).2 * a) 0 = digitsVal A inp := by
    rw [hwb]
    exact groups_fold A (word_params A B).1 (by omega) inp
  rw [hfold] at hspec
  rw [← hspec]
  simp only [convert_base_opt, Option.map_eq_none']

theorem convert_base_opt_some (inp : List Nat) (A L B : Nat)
    (hA : 1 ≤ A) (hA2 : A ≤ 256) (hB : 1 ≤ B) (hB2 : B ≤ 256)
    (o : List Nat) (h : convert_base_opt inp A L B = some o) :
    o.length = L ∧ (∀ e ∈ o, e < B) ∧ digitsVal B o = digitsVal A inp := by
  obtain ⟨hwb, _, hwl⟩ := word_params_inv A B hA hA2 hB hB2
  have hW : 1 ≤ (word_params A B).2 := by
    rw [hwb]
    exact Nat.one_le_pow _ _ (by omega)
  simp only [convert_base_opt, Option.map_eq_some'] at h
  obtain ⟨w, hw, hrev⟩ := h
  have hspec := (opt_loop_spec A (word_params A B).2 B (by omega) hW
    (groups (word_params A B).1 inp) (List.replicate L 0) 0
    (replicate_lt B L (by omega))
    (fun m _ _ => replicate_getD L m)).2 w hw
  rw [valLSB_replicate, List.length_replicate] at hspec
  have hfold : (groups (word_params A B).1 inp).foldl
      (fun a g => digitsVal A g + (word_params A B).2 * a) 0 = digitsVal A inp := by
    rw [hwb]
    exact groups_fold A (word_params A B).1 (by omega) inp
  rw [hfold] at hspec
  obtain ⟨h1, h2, h3⟩ := hspec
  subst hrev
  refine ⟨by simpa using h1, ?_, ?_⟩
  · intro e he; exact h2 e (List.mem_reverse.mp he)
  · rw [digitsVal_eq_valLSB_reverse, List.reverse_reverse, h3]

/-- C3: the optimized `convert_base` (word batching plus early inner-loop
break) returns exactly the same result as the naive digit-by-digit
`convert_base` on every input satisfying the documented precondition: same
success/overflow status, and bit-for-bit identical output digits. -/
theorem convert_base_opt_eq_naive (inp : List Nat) (A L B : Nat)
    (hA1 : 2 ≤ A) (hA2 : A ≤ 256) (hB1 : 2 ≤ B) (hB2 : B ≤ 256)
    (hdig : ∀ d ∈ inp, d < A) :
    convert_base_opt inp A L B = convert_base inp A L B := by
  by_cases hv : B ^ L ≤ digitsVal A inp
  · rw [(convert_base_opt_none_iff inp A L B (by omega) hA2 (by omega) hB2).mpr hv,
      (convert_base_none_iff inp A L B (by omega) (by omega)).mpr hv]
  · have hnaive := convert_base_success inp A L B (by omega) (by omega) (Nat.lt_of_not_le hv)
    cases h : convert_base_opt inp A L B with
    | none =>
      have := (convert_base_opt_none_iff inp A L B (by omega) hA2 (by omega) hB2).mp h
      omega
    | some o =>
      obtain ⟨h1, h2, h3⟩ := convert_base_opt_some inp A L B (by omega) hA2 (by omega) hB2 o h
      rw [hnaive, digits_unique B L (digitsVal A inp) (by omega) o h1 h2 h3
        (Nat.lt_of_not_le hv)]

theorem convert_base_opt_eq_naive_witness :
    (2 ≤ 256 ∧ 256 ≤ 256 ∧ 2 ≤ 36 ∧ 36 ≤ 256 ∧ (∀ d ∈ [255, 255, 255], d < 256)) ∧
    convert_base_opt [255, 255, 255] 256 25 36 = convert_base [255, 255, 255] 256 25 36 :=
  ⟨by decide,
   convert_base_opt_eq_naive [255, 255, 255] 256 25 36 (by decide) (by decide) (by decide)
     (by decide) (by decide)⟩

/-- Peak carry values of one naive inner iteration: the value of `carry`
right after `carry += out[j] * in_base`, i.e. the largest value the
`uint_fast16_t` accumulator ever holds in that loop step. -/
def mul_add_peaks (A B c : Nat) : List Nat → List Nat
  | [] => []
  | d :: r => (c + d * A) :: mul_add_peaks A B ((c + d * A) / B) r

/-- The digits written by the naive inner loop are exactly the peak values
reduced mod the output base, so the peak trace faithfully reflects the
computation. -/
theorem mul_add_digits_eq_peaks (A B : Nat) :
    ∀ (l : List Nat) (c : Nat),
      mul_add_digits A B c l = (mul_add_peaks A B c l).map (fun t => t % B) := by
  intro l
  induction l with
  | nil => intro c; rfl
  | cons d r ih =>
    intro c
    simp only [mul_add_digits, mul_add_peaks, List.map_cons]
    rw [ih]

theorem mul_add_peaks_le (A B : Nat) (hB : 0 < B) :
    ∀ (l : List Nat) (c : Nat), c < A → (∀ e ∈ l, e < B) →
      ∀ x ∈ mul_add_peaks A B c l, x ≤ A * B - 1 := by
  intro l
  induction l with
  | nil => intro c _ _ x hx; cases hx
  | cons d r ih =>
    intro c hc hl x hx
    have hd : d < B := hl d (by simp)
    have hpk : c + d * A + 1 ≤ A * B := by
      have h1 : d * A ≤ (B - 1) * A := Nat.mul_le_mul_right A (by omega)
      have h2 : (B - 1) * A + A = B * A := by
        have hB1 : 1 ≤ B := hB
        calc (B - 1) * A + A = (B - 1 + 1) * A := by ring
          _ = B * A := by rw [Nat.sub_add_cancel hB1]
      calc c + d * A + 1 ≤ (B - 1) * A + A := by omega
        _ = B * A := h2
        _ = A * B := Nat.mul_comm B A
    simp only [mul_add_peaks, List.mem_cons] at hx
    rcases hx with h | h
    · omega
    · have hdiv : (c + d * A) / B < A := (Nat.div_lt_iff_lt_mul hB).mpr (by omega)
      exact ih _ hdiv (fun e he => hl e (by simp [he])) x h

/-- Trace of all peak carry values of a whole naive `convert_base` run,
iteration by iteration, stopping where the code returns `-1`. -/
def conv_peaks (A B : Nat) : List Nat → List Nat → List Nat
  | [], _ => []
  | d :: r, out =>
    mul_add_peaks A B d out ++
      (if mul_add_carry A B d out = 0 then conv_peaks A B r (mul_add_digits A B d out)
       else [])

theorem conv_peaks_le (A B : Nat) (hB : 0 < B) :
    ∀ (inp out : List Nat), (∀ d ∈ inp, d < A) → (∀ e ∈ out, e < B) →
      ∀ x ∈ conv_peaks A B inp out, x ≤ A * B - 1 := by
  intro inp
  induction inp with
  | nil => intro out _ _ x hx; cases hx
  | cons d r ih =>
    intro out hin hout x hx
    simp only [conv_peaks, List.mem_append] at hx
    rcases hx with h | h
    · exact mul_add_peaks_le A B hB out d (hin d (by simp)) hout x h
    · by_cases hc : mul_add_carry A B d out = 0
      · rw [if_pos hc] at h
        exact ih (mul_add_digits A B d out) (fun e he => hin e (by simp [he]))
          (mul_add_digits_lt A B d hB out) x h
      · rw [if_neg hc] at h
        cases h

/-- Peak carry values of one optimized inner iteration (the largest value the
`uint64_t` accumulator holds in each step), cut short by the early break. -/
def brk_peaks (W B c kmin k : Nat) : List Nat → List Nat
  | [] => []
  | d :: r =>
    (c + d * W) ::
      (if (c + d * W) / B = 0 ∧ kmin ≤ k then []
       else brk_peaks W B ((c + d * W) / B) kmin (k + 1) r)

theorem brk_peaks_le (W B : Nat) (hB : 0 < B) :
    ∀ (l : List Nat) (c kmin k : Nat), c < W → (∀ e ∈ l, e < B) →
      ∀ x ∈ brk_peaks W B c kmin k l, x ≤ W * B - 1 := by
  intro l
  induction l with
  | nil => intro c kmin k _ _ x hx; cases hx
  | cons d r ih =>
    intro c kmin k hc hl x hx
    have hd : d < B := hl d (by simp)
    have hpk : c + d * W + 1 ≤ W * B := by
      have h1 : d * W ≤ (B - 1) * W := Nat.mul_le_mul_right W (by omega)
      have h2 : (B - 1) * W + W = B * W := by
        have hB1 : 1 ≤ B := hB
        calc (B - 1) * W + W = (B - 1 + 1) * W := by ring
          _ = B * W := by rw [Nat.sub_add_cancel hB1]
      calc c + d * W + 1 ≤ (B - 1) * W + W := by omega
        _ = B * W := h2
        _ = W * B := Nat.mul_comm B W
    simp only [brk_peaks, List.mem_cons] at hx
    rcases hx with h | h
    · omega
    · by_cases hcond : (c + d * W) / B = 0 ∧ kmin ≤ k
      · rw [if_pos hcond] at h
        cases h
      · rw [if_neg hcond] at h
        have hdiv : (c + d * W) / B < W := (Nat.div_lt_iff_lt_mul hB).mpr (by omega)
        exact ih _ kmin (k + 1) hdiv (fun e he => hl e (by simp [he])) x h

theorem brk_digits_lt (W B : Nat) (hB : 0 < B) :
    ∀ (l : List Nat) (c kmin k : Nat), (∀ e ∈ l, e < B) →
      ∀ e ∈ brk_digits W B c kmin k l, e < B := by
  intro l
  induction l with
  | nil => intro c kmin k _ e he; cases he
  | cons d r ih =>
    intro c kmin k hl e he
    simp only [brk_digits, List.mem_cons] at he
    rcases he with h | h
    · subst h; exact Nat.mod_lt _ hB
    · by_cases hcond : (c + d * W) / B = 0 ∧ kmin ≤ k
      · rw [if_pos hcond] at h
        exact hl e (by simp [h])
      · rw [if_neg hcond] at h
        exact ih _ kmin (k + 1) (fun x hx => hl x (by simp [hx])) e h

/-- Trace of all peak carry values of a whole optimized `convert_base` run. -/
def opt_peaks (A W B : Nat) : List (List Nat) → List Nat → Nat → List Nat
  | [], _, _ => []
  | g :: gs, out, kmin =>
    brk_peaks W B (digitsVal A g) kmin 0 out ++
      (if brk_carry W B (digitsVal A g) kmin 0 out = 0 then
        opt_peaks A W B gs (brk_digits W B (digitsVal A g) kmin 0 out)
          (brk_kmin W B (digitsVal A g) kmin 0 out)
      else [])

theorem opt_peaks_le (A W B : Nat) (hB : 0 < B) :
    ∀ (gs : List (List Nat)) (out : List Nat) (kmin : Nat),
      (∀ g ∈ gs, digitsVal A g < W) → (∀ e ∈ out, e < B) →
      ∀ x ∈ opt_peaks A W B gs out kmin, x ≤ W * B - 1 := by
  intro gs
  induction gs with
  | nil => intro out kmin _ _ x hx; cases hx
  | cons g t ih =>
    intro out kmin hg hout x hx
    simp only [opt_peaks, List.mem_append] at hx
    rcases hx with h | h
    · exact brk_peaks_le W B hB out (digitsVal A g) kmin 0 (hg g (by simp)) hout x h
    · by_cases hc : brk_carry W B (digitsVal A g) kmin 0 out = 0
      · rw [if_pos hc] at h
        exact ih (brk_digits W B (digitsVal A g) kmin 0 out)
          (brk_kmin W B (digitsVal A g) kmin 0 out)
          (fun e he => hg e (by simp [he]))
          (brk_digits_lt W B hB out (digitsVal A g) kmin 0 hout) x h
      · rw [if_neg hc] at h
        cases h

theorem chunksExact_mem (w : Nat) (hw : 0 < w) :
    ∀ (n : Nat) (l : List Nat), l.length ≤ n →
      ∀ g ∈ chunksExact w l, g.length ≤ w ∧ ∀ x ∈ g, x ∈ l := by
  intro n
  induction n with
  | zero =>
    intro l hl g hg
    have : l = [] := List.eq_nil_of_length_eq_zero (Nat.le_zero.mp hl)
    subst this
    rw [chunksExact_nil] at hg
    cases hg
  | succ n ih =>
    intro l hl g hg
    by_cases hl0 : l = []
    · subst hl0
      rw [chunksExact_nil] at hg
      cases hg
    · rw [chunksExact_cons w l hw hl0, List.mem_cons] at hg
      rcases hg with h | h
      · subst h
        constructor
        · simpa using Nat.min_le_left w l.length
        · exact fun x hx => List.take_subset w l hx
      · have hpos : 0 < l.length := List.length_pos.mpr hl0
        have := ih (l.drop w) (by simp [List.length_drop]; omega) g h
        exact ⟨this.1, fun x hx => List.drop_subset w l (this.2 x hx)⟩

theorem groups_mem (wl : Nat) (hwl : 0 < wl) (l : List Nat) :
    ∀ g ∈ groups wl l, g.length ≤ wl ∧ ∀ x ∈ g, x ∈ l := by
  intro g hg
  unfold groups at hg
  rw [List.mem_append] at hg
  rcases hg with h | h
  · by_cases h0 : l.length % wl = 0
    · rw [if_pos h0] at h
      cases h
    · rw [if_neg h0] at h
      simp only [List.mem_singleton] at h
      subst h
      constructor
      · have hmod : l.length % wl < wl := Nat.mod_lt _ hwl
        simp only [List.length_take]
        omega
      · exact fun x hx => List.take_subset _ l hx
  · have := chunksExact_mem wl hwl (l.drop (l.length % wl)).length
      (l.drop (l.length % wl)) (Nat.le_refl _) g h
    exact ⟨this.1, fun x hx => List.drop_subset _ l (this.2 x hx)⟩

/-- Every word value accumulated by the optimized loop — including every
intermediate prefix of the `carry = carry * in_base + in[j]` accumulation —
stays below `word_base`. -/
theorem groups_val_lt (A wl : Nat) (hA : 1 ≤ A) (hwl : 0 < wl) (l : List Nat)
    (hdig : ∀ d ∈ l, d < A) :
    ∀ g ∈ groups wl l, ∀ m, m ≤ g.length → digitsVal A (g.take m) < A ^ wl := by
  intro g hg m _
  obtain ⟨hlen, hsub⟩ := groups_mem wl hwl l g hg
  have hdg : ∀ d ∈ g.take m, d < A := fun d hd => hdig d (hsub d (List.take_subset m g hd))
  have h1 : digitsVal A (g.take m) < A ^ (g.take m).length :=
    digitsVal_lt A (by omega) (g.take m) hdg
  have h2 : (g.take m).length ≤ wl := by
    simp only [List.length_take]
    omega
  calc digitsVal A (g.take m) < A ^ (g.take m).length := h1
    _ ≤ A ^ wl := Nat.pow_le_pow_right hA h2

/-- C9: under the documented precondition the multi-precision arithmetic of
`convert_base` is exact, with no accumulator wraparound.  In the naive loop
every peak value of `carry` is at most `in_base * out_base - 1 ≤ 65535`
(representable in `uint_fast16_t`); in the optimized loop every word value
stays below `word_base` and every peak value of `carry` is at most
`word_base * out_base - 1`, which the `word_len` selection keeps at most
`UINT64_MAX`. -/
theorem convert_base_carry_bounds (inp : List Nat) (A L B : Nat)
    (hA1 : 2 ≤ A) (hA2 : A ≤ 256) (hB1 : 2 ≤ B) (hB2 : B ≤ 256)
    (hdig : ∀ d ∈ inp, d < A) :
    (∀ x ∈ conv_peaks A B inp (List.replicate L 0), x ≤ A * B - 1) ∧
    A * B - 1 ≤ 65535 ∧
    (∀ g ∈ groups (word_params A B).1 inp, ∀ m, m ≤ g.length →
      digitsVal A (g.take m) < (word_params A B).2) ∧
    (∀ x ∈ opt_peaks A (word_params A B).2 B (groups (word_params A B).1 inp)
        (List.replicate L 0) 0, x ≤ (word_params A B).2 * B - 1) ∧
    (word_params A B).2 * B - 1 ≤ UINT64_MAX := by
  obtain ⟨hwb, hle, hwl⟩ := word_params_inv A B (by omega) hA2 (by omega) hB2
  have hgrp : ∀ g ∈ groups (word_params A B).1 inp, ∀ m, m ≤ g.length →
      digitsVal A (g.take m) < (word_params A B).2 := by
    rw [hwb]
    exact groups_val_lt A (word_params A B).1 (by omega) (by omega) inp hdig
  refine ⟨?_, ?_, hgrp, ?_, by omega⟩
  · exact conv_peaks_le A B (by omega) inp _ hdig (replicate_lt B L (by omega))
  · have := Nat.mul_le_mul hA2 hB2
    omega
  · apply opt_peaks_le A (word_params A B).2 B (by omega)
    · intro g hg
      have := hgrp g hg g.length (Nat.le_refl _)
      simpa using this
    · exact replicate_lt B L (by omega)

theorem convert_base_carry_bounds_witness :
    (2 ≤ 256 ∧ 256 ≤ 256 ∧ 2 ≤ 36 ∧ 36 ≤ 256 ∧ (∀ d ∈ [255, 254], d < 256)) ∧
    ((∀ x ∈ conv_peaks 256 36 [255, 254] (List.replicate 25 0), x ≤ 256 * 36 - 1) ∧
     256 * 36 - 1 ≤ 65535 ∧
     (∀ g ∈ groups (word_params 256 36).1 [255, 254], ∀ m, m ≤ g.length →
       digitsVal 256 (g.take m) < (word_params 256 36).2) ∧
     (∀ x ∈ opt_peaks 256 (word_params 256 36).2 36 (groups (word_params 256 36).1 [255, 254])
         (List.replicate 25 0) 0, x ≤ (word_params 256 36).2 * 36 - 1) ∧
     (word_params 256 36).2 * 36 - 1 ≤ UINT64_MAX) :=
  ⟨by decide,
   convert_base_carry_bounds [255, 254] 256 25 36 (by decide) (by decide) (by decide)
     (by decide) (by decide)⟩

/-- Base36 digit characters of the v2.1.0 `encode`
(`"0123456789abcdefghijklmnopqrstuvwxyz"`), as byte values. -/
def DIGITS : List Nat :=
  [48, 49, 50, 51, 52, 53, 54, 55, 56, 57,
   97, 98, 99, 100, 101, 102, 103, 104, 105, 106, 107, 108, 109,
   110, 111, 112, 113, 114, 115, 116, 117, 118, 119, 120, 121, 122]

/-- Base36 digit characters of the older naive revision of `encode`
(`"0123456789ABCDEFGHIJKLMNOPQRSTUVWXYZ"`), as byte values. -/
def DIGITS_upper : List Nat :=
  [48, 49, 50, 51, 52, 53, 54, 55, 56, 57,
   65, 66, 67, 68, 69, 70, 71, 72, 73, 74, 75, 76, 77,
   78, 79, 80, 81, 82, 83, 84, 85, 86, 87, 88, 89, 90]

/-- The `encode` of the v2.1.0 `base36_128.c`: convert the 16 bytes to 25
base-36 digit values and map them through the lowercase `DIGITS` alphabet.
The `assert(err == 0)` abort is modelled as `none`; the terminating NUL the
C code appends is not part of the returned character list. -/
def encode (bytes : List Nat) : Option (List Nat) :=
  (convert_base bytes 256 25 36).map (fun ds => ds.map (fun d => DIGITS.getD d 0))

/-- The `encode` of the older naive revision of `base36_128.c`, identical
except for the uppercase `DIGITS` alphabet. -/
def encode_upper (bytes : List Nat) : Option (List Nat) :=
  (convert_base bytes 256 25 36).map (fun ds => ds.map (fun d => DIGITS_upper.getD d 0))

/-- The `DECODE_MAP[128]` table of `decode`, identical in both revisions:
the O(1) map from ASCII code points to Base36 digit values, with `0xff`
marking invalid characters. -/
def DECODE_MAP : List Nat :=
  [0xff, 0xff, 0xff, 0xff, 0xff, 0xff, 0xff, 0xff, 0xff, 0xff, 0xff, 0xff,
   0xff, 0xff, 0xff, 0xff, 0xff, 0xff, 0xff, 0xff, 0xff, 0xff, 0xff, 0xff,
   0xff, 0xff, 0xff, 0xff, 0xff, 0xff, 0xff, 0xff, 0xff, 0xff, 0xff, 0xff,
   0xff, 0xff, 0xff, 0xff, 0xff, 0xff, 0xff, 0xff, 0xff, 0xff, 0xff, 0xff,
   0x00, 0x01, 0x02, 0x03, 0x04, 0x05, 0x06, 0x07, 0x08, 0x09, 0xff, 0xff,
   0xff, 0xff, 0xff, 0xff, 0xff, 0x0a, 0x0b, 0x0c, 0x0d, 0x0e, 0x0f, 0x10,
   0x11, 0x12, 0x13, 0x14, 0x15, 0x16, 0x17, 0x18, 0x19, 0x1a, 0x1b, 0x1c,
   0x1d, 0x1e, 0x1f, 0x20, 0x21, 0x22, 0x23, 0xff, 0xff, 0xff, 0xff, 0xff,
   0xff, 0x0a, 0x0b, 0x0c, 0x0d, 0x0e, 0x0f, 0x10, 0x11, 0x12, 0x13, 0x14,
   0x15, 0x16, 0x17, 0x18, 0x19, 0x1a, 0x1b, 0x1c, 0x1d, 0x1e, 0x1f, 0x20,
   0x21, 0x22, 0x23, 0xff, 0xff, 0xff, 0xff, 0xff]

/-- The character-scanning loop of `decode`: read `n` characters starting at
index `i`, failing at the first character whose code is above 127 or maps
to `0xff`.  The input is the byte content of the C string; reading past its
end yields the terminating NUL (byte 0), which `DECODE_MAP` rejects. -/
def digit_loop (text : List Nat) : Nat → Nat → Option (List Nat)
  | _, 0 => some []
  | i, n + 1 =>
    if 127 < text.getD i 0 ∨ DECODE_MAP.getD (text.getD i 0) 0 = 0xff then none
    else
      match digit_loop text (i + 1) n with
      | none => none
      | some rest => some (DECODE_MAP.getD (text.getD i 0) 0 :: rest)

/-- The `decode` of `base36_128.c` (identical in both revisions): scan the
25 characters, check that `text[25]` is the terminating NUL, then convert
the 25 base-36 digit values into 16 bytes.  `none` models the non-zero
error return. -/
def decode (text : List Nat) : Option (List Nat) :=
  match digit_loop text 0 25 with
  | none => none
  | some dv => if text.getD 25 0 = 0 then convert_base dv 36 16 256 else none

/-- A character code accepted by the scanning loop of `decode`: at most 127
and not mapped to `0xff` by `DECODE_MAP`. -/
def validChar (c : Nat) : Prop := c ≤ 127 ∧ DECODE_MAP.getD c 0 ≠ 255

instance (c : Nat) : Decidable (validChar c) := by
  unfold validChar
  infer_instance

theorem digit_loop_some_of_valid (text : List Nat) :
    ∀ (n i : Nat), (∀ m, m < n → validChar (text.getD (i + m) 0)) →
      digit_loop text i n =
        some ((List.range n).map fun m => DECODE_MAP.getD (text.getD (i + m) 0) 0) := by
  intro n
  induction n with
  | zero => intro i _; rfl
  | succ n ih =>
    intro i hv
    have h0 : validChar (text.getD i 0) := by
      have := hv 0 (Nat.succ_pos n)
      simpa using this
    have hcond : ¬(127 < text.getD i 0 ∨ DECODE_MAP.getD (text.getD i 0) 0 = 0xff) := by
      intro h
      rcases h with h | h
      · exact absurd h0.1 (by omega)
      · exact h0.2 h
    have hrec := ih (i + 1) (fun m hm => by
      have h := hv (m + 1) (by omega)
      rwa [show i + (m + 1) = i + 1 + m by omega] at h)
    have hmap : (List.range (n + 1)).map (fun m => DECODE_MAP.getD (text.getD (i + m) 0) 0)
        = DECODE_MAP.getD (text.getD i 0) 0 ::
          (List.range n).map (fun m => DECODE_MAP.getD (text.getD (i + 1 + m) 0) 0) := by
      rw [List.range_succ_eq_map, List.map_cons, List.map_map]
      congr 1
      apply List.map_congr_left
      intro m hm
      show DECODE_MAP.getD (text.getD (i + (m + 1)) 0) 0
        = DECODE_MAP.getD (text.getD (i + 1 + m) 0) 0
      rw [show i + (m + 1) = i + 1 + m by omega]
    rw [hmap]
    simp only [digit_loop, if_neg hcond, hrec]

theorem digit_loop_none_iff (text : List Nat) :
    ∀ (n i : Nat), digit_loop text i n = none ↔
      ∃ m, m < n ∧ ¬ validChar (text.getD (i + m) 0) := by
  intro n
  induction n with
  | zero =>
    intro i
    constructor
    · intro h; cases h
    · rintro ⟨m, hm, _⟩; omega
  | succ n ih =>
    intro i
    by_cases hcond : 127 < text.getD i 0 ∨ DECODE_MAP.getD (text.getD i 0) 0 = 0xff
    · have hinv : ¬ validChar (text.getD i 0) := by
        intro hv
        rcases hcond with h | h
        · exact absurd hv.1 (by omega)
        · exact hv.2 h
      simp only [digit_loop, if_pos hcond]
      constructor
      · intro _
        exact ⟨0, Nat.succ_pos n, by simpa using hinv⟩
      · intro _; trivial
    · have hval : validChar (text.getD i 0) := by
        push_neg at hcond
        exact ⟨by omega, hcond.2⟩
      simp only [digit_loop, if_neg hcond]
      constructor
      · intro h
        cases hrec : digit_loop text (i + 1) n with
        | none =>
          obtain ⟨m, hm, hmv⟩ := (ih (i + 1)).mp hrec
          exact ⟨m + 1, by omega, by rwa [show i + (m + 1) = i + 1 + m by omega]⟩
        | some rest =>
          rw [hrec] at h
          cases h
      · rintro ⟨m, hm, hmv⟩
        cases m with
        | zero => exact absurd hval (by simpa using hmv)
        | succ m' =>
          have : digit_loop text (i + 1) n = none :=
            (ih (i + 1)).mpr ⟨m', by omega, by rwa [show i + 1 + m' = i + (m' + 1) by omega]⟩
          rw [this]

theorem range_map_getD (l : List Nat) :
    (List.range l.length).map (fun m => l.getD m 0) = l := by
  apply List.ext_getElem
  · simp
  · intro i h1 h2
    simp only [List.getElem_map, List.getElem_range]
    rw [List.getD_eq_getElem l 0 h2]

theorem pow_128_lt_36_25 : 2 ^ 128 < 36 ^ 25 := by norm_num

theorem pow_256_16 : (256 : Nat) ^ 16 = 2 ^ 128 := by norm_num

/-- C8: `encode` cannot fail: for every 16-byte input the internal
`convert_base` call (16 base-256 digits into 25 base-36 digits) succeeds,
because `36 ^ 25 > 2 ^ 128`, so the error branch guarded by
`assert(err == 0)` is unreachable. -/
theorem encode_total (b : List Nat) (h16 : b.length = 16) (hb : ∀ x ∈ b, x < 256) :
    convert_base b 256 25 36 ≠ none ∧ (∃ t, encode b = some t) ∧
      (∃ t, encode_upper b = some t) := by
  have hv : digitsVal 256 b < 36 ^ 25 := by
    have h1 : digitsVal 256 b < 256 ^ 16 := by
      have := digitsVal_lt 256 (by omega) b hb
      rwa [h16] at this
    calc digitsVal 256 b < 256 ^ 16 := h1
      _ = 2 ^ 128 := pow_256_16
      _ < 36 ^ 25 := pow_128_lt_36_25
  have hsucc := convert_base_success b 256 25 36 (by omega) (by omega) hv
  refine ⟨by rw [hsucc]; simp, ?_, ?_⟩
  · exact ⟨_, by rw [encode, hsucc]; rfl⟩
  · exact ⟨_, by rw [encode_upper, hsucc]; rfl⟩

theorem encode_total_witness :
    ((List.replicate 16 0).length = 16 ∧ (∀ x ∈ List.replicate 16 0, x < 256)) ∧
    (convert_base (List.replicate 16 0) 256 25 36 ≠ none ∧
      (∃ t, encode (List.replicate 16 0) = some t) ∧
      (∃ t, encode_upper (List.replicate 16 0) = some t)) :=
  ⟨by decide, encode_total (List.replicate 16 0) (by decide) (by decide)⟩

theorem getD_map_lt (f : Nat → Nat) (l : List Nat) (i : Nat) (h : i < l.length) :
    (l.map f).getD i 0 = f (l.getD i 0) := by
  rw [List.getD_eq_getElem _ _ (by simpa using h), List.getElem_map,
    List.getD_eq_getElem _ _ h]

/-- Decoding the character image of a digit array recovers the original
bytes, for any digit-to-character table that `DECODE_MAP` inverts (both the
lowercase and the uppercase `DIGITS` qualify). -/
theorem decode_encode_table (tbl : List Nat)
    (htbl : ∀ d, d < 36 → tbl.getD d 0 ≤ 127 ∧ DECODE_MAP.getD (tbl.getD d 0) 0 = d)
    (b : List Nat) (h16 : b.length = 16) (hb : ∀ x ∈ b, x < 256)
    (ds : List Nat) (hds : convert_base b 256 25 36 = some ds) :
    decode (ds.map fun d => tbl.getD d 0) = some b := by
  obtain ⟨hlen, hdig, hval, hlt⟩ := convert_base_some b 256 25 36 (by omega) (by omega) ds hds
  have hdsd : ∀ i, i < 25 → ds.getD i 0 < 36 := by
    intro i hi
    rw [List.getD_eq_getElem _ _ (by omega)]
    exact hdig _ (List.getElem_mem _)
  have hgetd : ∀ i, i < 25 →
      (ds.map fun d => tbl.getD d 0).getD i 0 = tbl.getD (ds.getD i 0) 0 := by
    intro i hi
    exact getD_map_lt _ ds i (by omega)
  have hvalid : ∀ m, m < 25 → validChar ((ds.map fun d => tbl.getD d 0).getD (0 + m) 0) := by
    intro m hm
    rw [Nat.zero_add, hgetd m hm]
    obtain ⟨hle, heq⟩ := htbl _ (hdsd m hm)
    refine ⟨hle, ?_⟩
    rw [heq]
    have := hdsd m hm
    omega
  have hloop := digit_loop_some_of_valid (ds.map fun d => tbl.getD d 0) 25 0 hvalid
  have hdv : ((List.range 25).map fun m =>
      DECODE_MAP.getD ((ds.map fun d => tbl.getD d 0).getD (0 + m) 0) 0) = ds := by
    have h1 : ∀ m ∈ List.range 25,
        DECODE_MAP.getD ((ds.map fun d => tbl.getD d 0).getD (0 + m) 0) 0 = ds.getD m 0 := by
      intro m hm
      have hm25 : m < 25 := List.mem_range.mp hm
      rw [Nat.zero_add, hgetd m hm25, (htbl _ (hdsd m hm25)).2]
    rw [List.map_congr_left h1]
    have := range_map_getD ds
    rwa [hlen] at this
  rw [hdv] at hloop
  have hterm : (ds.map fun d => tbl.getD d 0).getD 25 0 = 0 := by
    apply List.getD_eq_default
    simp [hlen]
  have hvb : digitsVal 256 b < 256 ^ 16 := by
    have := digitsVal_lt 256 (by omega) b hb
    rwa [h16] at this
  have hconv : convert_base ds 36 16 256 = some b := by
    have h1 : digitsVal 36 ds < 256 ^ 16 := by rwa [hval]
    have h2 := convert_base_success ds 36 16 256 (by omega) (by omega) h1
    rw [h2, hval]
    congr 1
    exact (digits_unique 256 16 (digitsVal 256 b) (by omega) b h16 hb rfl hvb).symm
  rw [decode, hloop]
  show (if (List.map (fun d => tbl.getD d 0) ds).getD 25 0 = 0
    then convert_base ds 36 16 256 else none) = some b
  rw [if_pos hterm, hconv]

/-- C1: round-trip — for every 16-byte value, decoding the encoded text
returns exactly the original bytes; this holds for the lowercase v2.1.0
`encode` and for the uppercase legacy `encode` alike, since `decode`
accepts both cases. -/
theorem decode_encode_roundtrip (b : List Nat) (h16 : b.length = 16)
    (hb : ∀ x ∈ b, x < 256) :
    (encode b).bind decode = some b ∧ (encode_upper b).bind decode = some b := by
  have hv : digitsVal 256 b < 36 ^ 25 := by
    have h1 : digitsVal 256 b < 256 ^ 16 := by
      have := digitsVal_lt 256 (by omega) b hb
      rwa [h16] at this
    calc digitsVal 256 b < 256 ^ 16 := h1
      _ = 2 ^ 128 := pow_256_16
      _ < 36 ^ 25 := pow_128_lt_36_25
  have hds := convert_base_success b 256 25 36 (by omega) (by omega) hv
  constructor
  · rw [encode, hds, Option.map_some', Option.some_bind]
    exact decode_encode_table DIGITS (by decide) b h16 hb _ hds
  · rw [encode_upper, hds, Option.map_some', Option.some_bind]
    exact decode_encode_table DIGITS_upper (by decide) b h16 hb _ hds

theorem decode_encode_roundtrip_witness :
    ((List.replicate 16 0).length = 16 ∧ (∀ x ∈ List.replicate 16 0, x < 256)) ∧
    ((encode (List.replicate 16 0)).bind decode = some (List.replicate 16 0) ∧
     (encode_upper (List.replicate 16 0)).bind decode = some (List.replicate 16 0)) :=
  ⟨by decide, decode_encode_roundtrip (List.replicate 16 0) (by decide) (by decide)⟩

/-- Character codes of the canonical lowercase Base36 alphabet
`0123456789abcdefghijklmnopqrstuvwxyz`. -/
def lower36 (c : Nat) : Prop := (48 ≤ c ∧ c ≤ 57) ∨ (97 ≤ c ∧ c ≤ 122)

/-- Character codes of the uppercase Base36 alphabet
`0123456789ABCDEFGHIJKLMNOPQRSTUVWXYZ`. -/
def upper36 (c : Nat) : Prop := (48 ≤ c ∧ c ≤ 57) ∨ (65 ≤ c ∧ c ≤ 90)

instance (c : Nat) : Decidable (lower36 c) := by
  unfold lower36
  infer_instance

instance (c : Nat) : Decidable (upper36 c) := by
  unfold upper36
  infer_instance

/-- C6 counterexample: the uppercase legacy `encode` (the `DIGITS` table of
the naive revision of `base36_128.c`) emits the character `F` (code 70) on
the all-`0xff` input, and `F` is not in the lowercase alphabet
`[0-9a-z]`, so the claim that `encode` always emits lowercase fails on
that revision. -/
theorem encode_lowercase_counterexample :
    encode_upper (List.replicate 16 255) =
      some [70, 53, 76, 88, 88, 49, 90, 90, 53, 80, 78, 79, 82, 89, 78, 81, 71, 76, 72,
        90, 77, 83, 80, 51, 51] ∧
    70 ∈ [70, 53, 76, 88, 88, 49, 90, 90, 53, 80, 78, 79, 82, 89, 78, 81, 71, 76, 72,
        90, 77, 83, 80, 51, 51] ∧
    ¬ lower36 70 := by decide

/-- C6 amended: for every 16-byte input, the v2.1.0 `encode` emits exactly
25 characters drawn from the lowercase alphabet `[0-9a-z]` (matching
`^[0-9a-z]{25}$`), while the legacy uppercase `encode` emits exactly 25
characters drawn from the uppercase alphabet `[0-9A-Z]`. -/
theorem encode_alphabet (b : List Nat) (h16 : b.length = 16) (hb : ∀ x ∈ b, x < 256) :
    (∃ t, encode b = some t ∧ t.length = 25 ∧ ∀ c ∈ t, lower36 c) ∧
    (∃ t, encode_upper b = some t ∧ t.length = 25 ∧ ∀ c ∈ t, upper36 c) := by
  have hv : digitsVal 256 b < 36 ^ 25 := by
    have h1 : digitsVal 256 b < 256 ^ 16 := by
      have := digitsVal_lt 256 (by omega) b hb
      rwa [h16] at this
    calc digitsVal 256 b < 256 ^ 16 := h1
      _ = 2 ^ 128 := pow_256_16
      _ < 36 ^ 25 := pow_128_lt_36_25
  have hds := convert_base_success b 256 25 36 (by omega) (by omega) hv
  obtain ⟨hlen, hdig, -, -⟩ :=
    convert_base_some b 256 25 36 (by omega) (by omega) _ hds
  have hlow : ∀ d, d < 36 → lower36 (DIGITS.getD d 0) := by decide
  have hup : ∀ d, d < 36 → upper36 (DIGITS_upper.getD d 0) := by decide
  constructor
  · refine ⟨_, by rw [encode, hds]; rfl, by simpa using hlen, ?_⟩
    intro c hc
    obtain ⟨d, hd, hcd⟩ := List.mem_map.mp hc
    rw [← hcd]
    exact hlow d (hdig d hd)
  · refine ⟨_, by rw [encode_upper, hds]; rfl, by simpa using hlen, ?_⟩
    intro c hc
    obtain ⟨d, hd, hcd⟩ := List.mem_map.mp hc
    rw [← hcd]
    exact hup d (hdig d hd)

theorem encode_alphabet_witness :
    ((List.replicate 16 255).length = 16 ∧ (∀ x ∈ List.replicate 16 255, x < 256)) ∧
    ((∃ t, encode (List.replicate 16 255) = some t ∧ t.length = 25 ∧ ∀ c ∈ t, lower36 c) ∧
     (∃ t, encode_upper (List.replicate 16 255) = some t ∧ t.length = 25 ∧
        ∀ c ∈ t, upper36 c)) :=
  ⟨by decide, encode_alphabet (List.replicate 16 255) (by decide) (by decide)⟩

/-- Character codes accepted by `decode`: decimal digits, uppercase
letters, or lowercase letters. -/
def inAlphabet (c : Nat) : Prop :=
  (48 ≤ c ∧ c ≤ 57) ∨ (65 ≤ c ∧ c ≤ 90) ∨ (97 ≤ c ∧ c ≤ 122)

instance (c : Nat) : Decidable (inAlphabet c) := by
  unfold inAlphabet
  infer_instance

theorem validChar_iff (c : Nat) : validChar c ↔ inAlphabet c := by
  by_cases h : c < 128
  · have hall : ∀ x, x < 128 → (validChar x ↔ inAlphabet x) := by decide
    exact hall c h
  · constructor
    · intro hv
      exact absurd hv.1 (by omega)
    · intro ha
      unfold inAlphabet at ha
      omega

theorem natDigits_length (B L v : Nat) : (natDigits B L v).length = L := by
  rw [natDigits, List.length_reverse, natDigitsRev_length]

theorem digit_loop_0_25 (text : List Nat) (h : ∀ m, m < 25 → validChar (text.getD m 0)) :
    digit_loop text 0 25 =
      some ((List.range 25).map fun m => DECODE_MAP.getD (text.getD m 0) 0) := by
  have := digit_loop_some_of_valid text 25 0
    (fun m hm => by rw [Nat.zero_add]; exact h m hm)
  rw [this]
  congr 1

theorem decode_some_parts (text b : List Nat) (h : decode text = some b) :
    ∃ dv, digit_loop text 0 25 = some dv ∧ text.getD 25 0 = 0 ∧
      convert_base dv 36 16 256 = some b := by
  unfold decode at h
  cases hdl : digit_loop text 0 25 with
  | none => rw [hdl] at h; cases h
  | some dv =>
    rw [hdl] at h
    have h2 : (if text.getD 25 0 = 0 then convert_base dv 36 16 256 else none) = some b := h
    by_cases hterm : text.getD 25 0 = 0
    · rw [if_pos hterm] at h2
      exact ⟨dv, rfl, hterm, h2⟩
    · rw [if_neg hterm] at h2
      cases h2

/-- C4: `decode(text)` succeeds and yields a 16-byte value exactly when the
first 25 characters are in `0-9`, `A-Z` or `a-z`, the 26th byte is the NUL
terminator, and the base-36 value of the 25 digits is at most `2^128 - 1`;
in every other case — wrong length, non-alphabet character (including any
byte above 127), or out-of-range numeral — it returns the error. -/
theorem decode_characterization (text : List Nat) :
    ((∃ b, decode text = some b ∧ b.length = 16) ↔
      ((∀ i, i < 25 → inAlphabet (text.getD i 0)) ∧ text.getD 25 0 = 0 ∧
        digitsVal 36 ((List.range 25).map fun m => DECODE_MAP.getD (text.getD m 0) 0)
          ≤ 2 ^ 128 - 1)) ∧
    (¬((∀ i, i < 25 → inAlphabet (text.getD i 0)) ∧ text.getD 25 0 = 0 ∧
        digitsVal 36 ((List.range 25).map fun m => DECODE_MAP.getD (text.getD m 0) 0)
          ≤ 2 ^ 128 - 1) → decode text = none) := by
  have hpos : 0 < 2 ^ 128 := Nat.pos_pow_of_pos 128 (by omega)
  have hiff : (∃ b, decode text = some b ∧ b.length = 16) ↔
      ((∀ i, i < 25 → inAlphabet (text.getD i 0)) ∧ text.getD 25 0 = 0 ∧
        digitsVal 36 ((List.range 25).map fun m => DECODE_MAP.getD (text.getD m 0) 0)
          ≤ 2 ^ 128 - 1) := by
    constructor
    · rintro ⟨b, hb, -⟩
      obtain ⟨dv, hdl, hterm, hconv⟩ := decode_some_parts text b hb
      have hvalid : ∀ m, m < 25 → validChar (text.getD m 0) := by
        intro m hm
        by_contra hinv
        have : digit_loop text 0 25 = none :=
          (digit_loop_none_iff text 25 0).mpr ⟨m, hm, by rwa [Nat.zero_add]⟩
        rw [this] at hdl
        cases hdl
      have hdv : dv = (List.range 25).map fun m => DECODE_MAP.getD (text.getD m 0) 0 := by
        have h2 := digit_loop_0_25 text hvalid
        rw [hdl] at h2
        exact (Option.some.injEq _ _).mp h2
      obtain ⟨-, -, -, hlt⟩ := convert_base_some dv 36 16 256 (by omega) (by omega) b hconv
      refine ⟨fun i hi => (validChar_iff _).mp (hvalid i hi), hterm, ?_⟩
      rw [← hdv]
      rw [pow_256_16] at hlt
      omega
    · rintro ⟨halpha, hterm, hval⟩
      have hvalid : ∀ m, m < 25 → validChar (text.getD m 0) :=
        fun m hm => (validChar_iff _).mpr (halpha m hm)
      have hdl := digit_loop_0_25 text hvalid
      have hlt : digitsVal 36 ((List.range 25).map fun m =>
          DECODE_MAP.getD (text.getD m 0) 0) < 256 ^ 16 := by
        rw [pow_256_16]
        omega
      have hconv := convert_base_success _ 36 16 256 (by omega) (by omega) hlt
      refine ⟨natDigits 256 16 (digitsVal 36 ((List.range 25).map fun m =>
        DECODE_MAP.getD (text.getD m 0) 0)), ?_, natDigits_length _ _ _⟩
      rw [decode, hdl]
      show (if text.getD 25 0 = 0
        then convert_base ((List.range 25).map fun m => DECODE_MAP.getD (text.getD m 0) 0)
          36 16 256 else none) = _
      rw [if_pos hterm, hconv]
  refine ⟨hiff, ?_⟩
  intro hn
  cases hd : decode text with
  | none => rfl
  | some b =>
    exfalso
    obtain ⟨dv, hdl, hterm, hconv⟩ := decode_some_parts text b hd
    obtain ⟨hlen, -, -, -⟩ := convert_base_some dv 36 16 256 (by omega) (by omega) b hconv
    exact hn (hiff.mp ⟨b, hd, hlen⟩)

/-- Two character codes that differ at most by letter case: either equal, or
an uppercase letter and its lowercase counterpart (offset 32) in either
order. -/
def caseEquiv (c c2 : Nat) : Prop :=
  c = c2 ∨ (c2 = c + 32 ∧ 65 ≤ c ∧ c ≤ 90) ∨ (c = c2 + 32 ∧ 65 ≤ c2 ∧ c2 ≤ 90)

instance (c c2 : Nat) : Decidable (caseEquiv c c2) := by
  unfold caseEquiv
  infer_instance

theorem caseEquiv_decode_map (c c2 : Nat) (h : caseEquiv c c2) :
    (validChar c ↔ validChar c2) ∧ DECODE_MAP.getD c 0 = DECODE_MAP.getD c2 0 ∧
      (c = 0 ↔ c2 = 0) := by
  have hshift : ∀ x, x < 91 → 65 ≤ x →
      ((validChar x ↔ validChar (x + 32)) ∧
        DECODE_MAP.getD x 0 = DECODE_MAP.getD (x + 32) 0) := by decide
  rcases h with h | ⟨h1, h2, h3⟩ | ⟨h1, h2, h3⟩
  · subst h
    exact ⟨Iff.rfl, rfl, Iff.rfl⟩
  · subst h1
    obtain ⟨hv, hm⟩ := hshift c (by omega) h2
    exact ⟨hv, hm, by omega⟩
  · subst h1
    obtain ⟨hv, hm⟩ := hshift c2 (by omega) h2
    exact ⟨hv.symm, hm.symm, by omega⟩

theorem digit_loop_congr (t t2 : List Nat)
    (h : ∀ i, i < 26 → caseEquiv (t.getD i 0) (t2.getD i 0)) :
    ∀ (n i : Nat), n + i ≤ 26 → digit_loop t i n = digit_loop t2 i n := by
  intro n
  induction n with
  | zero => intro i _; rfl
  | succ n ih =>
    intro i hi
    obtain ⟨hv, hm, -⟩ := caseEquiv_decode_map _ _ (h i (by omega))
    by_cases hc1 : 127 < t.getD i 0 ∨ DECODE_MAP.getD (t.getD i 0) 0 = 0xff
    · have hc2 : 127 < t2.getD i 0 ∨ DECODE_MAP.getD (t2.getD i 0) 0 = 0xff := by
        by_contra hc2
        push_neg at hc2
        have : validChar (t.getD i 0) := hv.mpr ⟨by omega, hc2.2⟩
        rcases hc1 with h1 | h1
        · exact absurd this.1 (by omega)
        · exact this.2 h1
      simp only [digit_loop, if_pos hc1, if_pos hc2]
    · have hc2 : ¬(127 < t2.getD i 0 ∨ DECODE_MAP.getD (t2.getD i 0) 0 = 0xff) := by
        push_neg at hc1
        have : validChar (t2.getD i 0) := hv.mp ⟨by omega, hc1.2⟩
        intro hcon
        rcases hcon with h1 | h1
        · exact absurd this.1 (by omega)
        · exact this.2 h1
      have hl := ih (i + 1) (by omega)
      simp only [digit_loop, if_neg hc1, if_neg hc2]
      rw [hl, hm]

/-- C7: `decode` is case-insensitive — replacing any letters of the input by
their opposite-case ASCII counterparts (on any of the 26 bytes the function
examines) leaves the result unchanged; in particular the uppercased,
lowercased and mixed-case forms of a valid numeral all decode to identical
bytes. -/
theorem decode_case_insensitive (t t2 : List Nat)
    (h : ∀ i, i < 26 → caseEquiv (t.getD i 0) (t2.getD i 0)) :
    decode t = decode t2 := by
  have hdl := digit_loop_congr t t2 h 25 0 (by omega)
  have hterm : (t.getD 25 0 = 0) ↔ (t2.getD 25 0 = 0) :=
    (caseEquiv_decode_map _ _ (h 25 (by omega))).2.2
  unfold decode
  rw [hdl]
  cases digit_loop t2 0 25 with
  | none => rfl
  | some dv =>
    show (if t.getD 25 0 = 0 then convert_base dv 36 16 256 else none)
      = (if t2.getD 25 0 = 0 then convert_base dv 36 16 256 else none)
    by_cases ht : t.getD 25 0 = 0
    · rw [if_pos ht, if_pos (hterm.mp ht)]
    · rw [if_neg ht, if_neg (fun hx => ht (hterm.mpr hx))]

theorem decode_case_insensitive_witness :
    (∀ i, i < 26 → caseEquiv
      ([70, 53, 76, 88, 88, 49, 90, 90, 53, 80, 78, 79, 82, 89, 78, 81, 71, 76, 72,
        90, 77, 83, 80, 51, 51].getD i 0)
      ([102, 53, 108, 120, 120, 49, 122, 122, 53, 112, 110, 111, 114, 121, 110, 113,
        103, 108, 104, 122, 109, 115, 112, 51, 51].getD i 0)) ∧
    decode [70, 53, 76, 88, 88, 49, 90, 90, 53, 80, 78, 79, 82, 89, 78, 81, 71, 76, 72,
        90, 77, 83, 80, 51, 51] =
      decode [102, 53, 108, 120, 120, 49, 122, 122, 53, 112, 110, 111, 114, 121, 110, 113,
        103, 108, 104, 122, 109, 115, 112, 51, 51] :=
  ⟨by decide, decode_case_insensitive _ _ (by decide)⟩

/-- Stateful model of `convert_base` for the frame property: the loop over
the input digits carried out on the output buffer, returning the C error
code together with the final buffer contents (least-significant first);
on overflow the buffer keeps the partially updated digits present when
`return -1` executes. -/
def conv_st_loop (A B : Nat) : List Nat → List Nat → Int × List Nat
  | [], out => (0, out)
  | d :: r, out =>
    if mul_add_carry A B d out = 0 then conv_st_loop A B r (mul_add_digits A B d out)
    else (-1, mul_add_digits A B d out)

/-- Stateful model of `convert_base(in, in_len, in_base, out, out_len,
out_base)`: the function first overwrites the whole output buffer with
zeros, then runs the loop; the returned buffer is in most-significant-first
order like the C array. -/
def convert_base_st (inp : List Nat) (A : Nat) (buf : List Nat) (B : Nat) : Int × List Nat :=
  ((conv_st_loop A B inp (List.replicate buf.length 0)).1,
   (conv_st_loop A B inp (List.replicate buf.length 0)).2.reverse)

/-- Stateful model of `decode`: `out` is touched only by the final
`convert_base` call, which runs only after all 25 characters and the
terminator have been validated; on the two early error returns the caller's
buffer is passed through unmodified. -/
def decode_st (text buf : List Nat) : Int × List Nat :=
  match digit_loop text 0 25 with
  | none => (-1, buf)
  | some dv => if text.getD 25 0 = 0 then convert_base_st dv 36 buf 256 else (-1, buf)

theorem conv_st_status (A B : Nat) :
    ∀ (inp out : List Nat), (conv_st_loop A B inp out).1 = 0 ↔
      ∃ o, conv_loop A B inp out = some o := by
  intro inp
  induction inp with
  | nil =>
    intro out
    constructor
    · intro _
      exact ⟨out, rfl⟩
    · intro _
      rfl
  | cons d r ih =>
    intro out
    by_cases hc : mul_add_carry A B d out = 0
    · simp only [conv_st_loop, conv_loop, if_pos hc]
      exact ih _
    · simp only [conv_st_loop, conv_loop, if_neg hc]
      constructor
      · intro h; simp at h
      · rintro ⟨o, ho⟩; cases ho

/-- The stateful model agrees with the functional `decode` on the
success/failure status. -/
theorem decode_st_status (text buf : List Nat) (h16 : buf.length = 16) :
    ((decode_st text buf).1 = 0 ↔ ∃ b, decode text = some b) := by
  unfold decode_st decode
  cases digit_loop text 0 25 with
  | none =>
    constructor
    · intro h; simp at h
    · rintro ⟨b, hb⟩; cases hb
  | some dv =>
    by_cases hterm : text.getD 25 0 = 0
    · show ((if text.getD 25 0 = 0 then convert_base_st dv 36 buf 256 else (-1, buf)).1 = 0
        ↔ ∃ b, (if text.getD 25 0 = 0 then convert_base dv 36 16 256 else none) = some b)
      rw [if_pos hterm, if_pos hterm]
      unfold convert_base_st convert_base
      rw [h16]
      constructor
      · intro h
        obtain ⟨o, ho⟩ := (conv_st_status 36 256 dv (List.replicate 16 0)).mp h
        exact ⟨o.reverse, by rw [ho]; rfl⟩
      · rintro ⟨b, hb⟩
        apply (conv_st_status 36 256 dv (List.replicate 16 0)).mpr
        cases hcl : conv_loop 36 256 dv (List.replicate 16 0) with
        | none => rw [hcl] at hb; cases hb
        | some o => exact ⟨o, rfl⟩
    · show ((if text.getD 25 0 = 0 then convert_base_st dv 36 buf 256 else (-1, buf)).1 = 0
        ↔ ∃ b, (if text.getD 25 0 = 0 then convert_base dv 36 16 256 else none) = some b)
      rw [if_neg hterm, if_neg hterm]
      constructor
      · intro h; simp at h
      · rintro ⟨b, hb⟩; cases hb

/-- C10: when `decode` fails because of an invalid character among the
first 25 bytes or because the 26th byte is not the NUL terminator, the
caller's 16-byte output buffer is returned completely unmodified — the
function writes to `out` only via the final `convert_base` call, which runs
only after that validation has passed. -/
theorem decode_frame (text buf : List Nat)
    (h : digit_loop text 0 25 = none ∨ text.getD 25 0 ≠ 0) :
    decode_st text buf = (-1, buf) := by
  rcases h with h | h
  · unfold decode_st
    rw [h]
  · unfold decode_st
    cases digit_loop text 0 25 with
    | none => rfl
    | some dv =>
      show (if text.getD 25 0 = 0 then convert_base_st dv 36 buf 256 else (-1, buf)) = (-1, buf)
      rw [if_neg h]

theorem decode_frame_witness :
    (digit_loop [43] 0 25 = none ∨ ([43] : List Nat).getD 25 0 ≠ 0) ∧
    decode_st [43] [7, 7, 7, 7, 7, 7, 7, 7, 7, 7, 7, 7, 7, 7, 7, 7] =
      (-1, [7, 7, 7, 7, 7, 7, 7, 7, 7, 7, 7, 7, 7, 7, 7, 7]) :=
  ⟨Or.inl (by decide), decode_frame _ _ (Or.inl (by decide))⟩

theorem decode_characterization_witness :
    ((∃ b, decode [] = some b ∧ b.length = 16) ↔
      ((∀ i, i < 25 → inAlphabet (([] : List Nat).getD i 0)) ∧
        ([] : List Nat).getD 25 0 = 0 ∧
        digitsVal 36 ((List.range 25).map fun m =>
          DECODE_MAP.getD (([] : List Nat).getD m 0) 0) ≤ 2 ^ 128 - 1)) ∧
    (¬((∀ i, i < 25 → inAlphabet (([] : List Nat).getD i 0)) ∧
        ([] : List Nat).getD 25 0 = 0 ∧
        digitsVal 36 ((List.range 25).map fun m =>
          DECODE_MAP.getD (([] : List Nat).getD m 0) 0) ≤ 2 ^ 128 - 1) →
      decode [] = none) :=
  decode_characterization []
